import Mathlib

/-!
Shallow embedding of `src/lib.py` (strength-finder analyzer).

The Python module works on a table `dict[str, list[Theme]]` mapping member
names to ranked trait profiles.  Dictionaries preserve insertion order, so a
table is embedded as an association list `List (String × List String)` with
distinct keys; a `dict[Theme, int]` result is embedded as an association list
`List (String × Nat)` in the order Python would produce it.

Python operations that can raise (`x / 0` in `_jaccard`, `reduce` over an
empty iterable in `_skipped_union`) are embedded with `Option`: `none` marks
the raised exception.
-/

namespace StrengthFinder

/-- The fixed 34-label trait vocabulary, `Theme.__args__` in the source,
in declaration order. -/
def themeVocabulary : List String :=
  [ "分析思考", "原点思考", "未来志向", "着想", "収集心", "内省", "学習欲", "戦略性",
    "適応性", "運命思考", "成長促進", "共感性", "調和性", "包含", "個別化",
    "ポジティブ", "親密性",
    "活発性", "指令性", "コミュニケーション", "競争性", "最上志向", "自己確信",
    "自我", "社交性",
    "達成欲", "アレンジ", "信念", "公平性", "慎重さ", "規律性", "目標志向",
    "責任感", "回復志向" ]

/-- Python slice `xs[:rate]` for a natural `rate`. -/
def sliceHead (xs : List String) (rate : Nat) : List String :=
  xs.take rate

/-- Python slice `xs[-rate:]` for a natural `rate`.  For `rate = 0` the slice
`xs[-0:]` is `xs[0:]`, the whole list; for `rate ≥ 1` it is the last
`min rate xs.length` elements. -/
def sliceTail (xs : List String) (rate : Nat) : List String :=
  if rate = 0 then xs else xs.drop (xs.length - rate)

/-- One step of `collections.Counter` construction: counting the element `x`
into the accumulated (insertion-ordered) association list. -/
def counterAdd (acc : List (String × Nat)) (x : String) : List (String × Nat) :=
  if acc.any (fun p => p.1 = x) then
    acc.map (fun p => if p.1 = x then (p.1, p.2 + 1) else p)
  else
    acc ++ [(x, 1)]

/-- `collections.Counter(l)` as an insertion-ordered association list. -/
def counter (l : List String) : List (String × Nat) :=
  l.foldl counterAdd []

/-- `d[k]` lookup in an association-list dictionary (first matching key). -/
def dlookup (d : List (String × Nat)) (k : String) : Option Nat :=
  (d.find? (fun p => p.1 = k)).map Prod.snd

/-- Python dict merge `{**d1, **d2}`: keys of `d1` in order with values
overridden by `d2` where present, then the keys of `d2` not in `d1`,
in `d2` order. -/
def dictMerge (d1 d2 : List (String × Nat)) : List (String × Nat) :=
  d1.map (fun p => (p.1, (dlookup d2 p.1).getD p.2)) ++
    d2.filter (fun p => ¬ d1.any (fun q => q.1 = p.1))

/-- The zero-filled baseline `{ theme: 0 for theme in Theme.__args__ }`. -/
def emptyHist : List (String × Nat) :=
  themeVocabulary.map (fun t => (t, 0))

/-- `histogram(table, rate)`: the pair of the strengths histogram and the
weaknesses histogram, each the zero-filled vocabulary merged with a
`Counter` over the concatenated head (resp. tail) slices of all profiles. -/
def histogram (table : List (String × List String)) (rate : Nat) :
    List (String × Nat) × List (String × Nat) :=
  let s_hist := counter ((table.map (fun kv => sliceHead kv.2 rate)).flatten)
  let w_hist := counter ((table.map (fun kv => sliceTail kv.2 rate)).flatten)
  (dictMerge emptyHist s_hist, dictMerge emptyHist w_hist)

/-- `_jaccard(Xi, Xj) = len(Xi & Xj) / len(Xi | Xj)`; `none` embeds the
`ZeroDivisionError` raised when the union is empty. -/
def jaccard (Xi Xj : Finset String) : Option ℚ :=
  if (Xi ∪ Xj).card = 0 then none
  else some (((Xi ∩ Xj).card : ℚ) / ((Xi ∪ Xj).card : ℚ))

/-- `_distance(Xi, Xj, rate) = 1 - (s_jaccard + w_jaccard) / 2`; `none` embeds
a `ZeroDivisionError` raised by either Jaccard term. -/
def distance (Xi Xj : List String) (rate : Nat) : Option ℚ :=
  match jaccard (sliceHead Xi rate).toFinset (sliceHead Xj rate).toFinset,
        jaccard (sliceTail Xi rate).toFinset (sliceTail Xj rate).toFinset with
  | some s, some w => some (1 - (s + w) / 2)
  | _, _ => none

/-- `itertools.combinations(l, 2)`: all pairs `(l[a], l[b])` with `a < b`,
in lexicographic index order. -/
def pairs {α : Type} : List α → List (α × α)
  | [] => []
  | x :: xs => xs.map (fun y => (x, y)) ++ pairs xs

/-- `distance_gen(table, rate)`: one triple `(name_i, name_j, distance)` per
2-combination of the table items, in combination order. -/
def distance_gen (table : List (String × List String)) (rate : Nat) :
    List (String × String × Option ℚ) :=
  (pairs table).map (fun ij => (ij.1.1, ij.2.1, distance ij.1.2 ij.2.2 rate))

/-- `_skipped_union(name_i, table, rate)`: `reduce` of set-union over the
head-slice sets of all entries whose key differs from `name_i`.  `none`
embeds the `TypeError` that `functools.reduce` raises on an empty iterable
with no initial value. -/
def skipped_union (name_i : String) (table : List (String × List String))
    (rate : Nat) : Option (Finset String) :=
  match (table.filter (fun kv => kv.1 ≠ name_i)).map
      (fun kv => (sliceHead kv.2 rate).toFinset) with
  | [] => none
  | x :: xs => some (xs.foldl (· ∪ ·) x)

/-- `specific_gen(table, rate)`: one pair `(name_i, set(Xi[:rate]) -
_skipped_union(name_i, table, rate))` per table entry, in table order; the
second component is `none` when the skipped union raises. -/
def specific_gen (table : List (String × List String)) (rate : Nat) :
    List (String × Option (Finset String)) :=
  table.map (fun kv =>
    (kv.1, (skipped_union kv.1 table rate).map
      (fun u => (sliceHead kv.2 rate).toFinset \ u)))

/-! ### Basic facts about the slices -/

lemma sliceHead_length (xs : List String) (rate : Nat) :
    (sliceHead xs rate).length = min rate xs.length := by
  simp [sliceHead]

lemma sliceTail_length (xs : List String) (rate : Nat) (hr : 1 ≤ rate) :
    (sliceTail xs rate).length = min rate xs.length := by
  rw [sliceTail, if_neg (by omega)]
  simp only [List.length_drop]
  omega

lemma sliceHead_ne_nil (xs : List String) (rate : Nat) (hr : 1 ≤ rate)
    (hxs : xs ≠ []) : sliceHead xs rate ≠ [] := by
  have hlen : 1 ≤ xs.length := List.length_pos.mpr hxs
  intro h
  have := sliceHead_length xs rate
  rw [h] at this
  simp at this
  omega

lemma sliceTail_ne_nil (xs : List String) (rate : Nat) (hr : 1 ≤ rate)
    (hxs : xs ≠ []) : sliceTail xs rate ≠ [] := by
  have hlen : 1 ≤ xs.length := List.length_pos.mpr hxs
  intro h
  have := sliceTail_length xs rate hr
  rw [h] at this
  simp at this
  omega

/-! ### Facts about `jaccard` and `distance` -/

lemma jaccard_eq_none_iff (X Y : Finset String) :
    jaccard X Y = none ↔ X ∪ Y = ∅ := by
  rw [jaccard]
  split <;> simp_all [Finset.card_eq_zero]

lemma jaccard_comm (X Y : Finset String) : jaccard X Y = jaccard Y X := by
  rw [jaccard, jaccard, Finset.union_comm, Finset.inter_comm]

lemma jaccard_bounds (X Y : Finset String) (h : (X ∪ Y).Nonempty) :
    ∃ q : ℚ, jaccard X Y = some q ∧ 0 ≤ q ∧ q ≤ 1 := by
  have hc : ¬ (X ∪ Y).card = 0 := by
    simpa [Finset.card_eq_zero] using h.ne_empty
  have hpos : (0 : ℚ) < ((X ∪ Y).card : ℚ) := by
    exact_mod_cast Nat.pos_of_ne_zero hc
  refine ⟨_, by rw [jaccard, if_neg hc], ?_, ?_⟩
  · positivity
  · rw [div_le_one hpos]
    exact_mod_cast Finset.card_le_card
      (Finset.inter_subset_left.trans Finset.subset_union_left)

lemma jaccard_self_of_nonempty (X : Finset String) (h : X.Nonempty) :
    jaccard X X = some 1 := by
  have hc : ¬ (X ∪ X).card = 0 := by
    simpa [Finset.card_eq_zero] using h.ne_empty
  rw [jaccard, if_neg hc, Finset.union_self, Finset.inter_self]
  congr 1
  rw [div_self]
  exact_mod_cast fun h0 => hc (by simpa [Finset.union_self] using h0)

/-- C3: `_distance` raises a `ZeroDivisionError` (embedded: returns `none`)
iff the union of the compared strength sets or the union of the compared
weakness sets is empty; under the precondition `rate ≥ 1` with both profiles
non-empty, no error is raised. -/
theorem distance_divzero_iff (Xi Xj : List String) (rate : Nat) :
    (distance Xi Xj rate = none ↔
      (sliceHead Xi rate).toFinset ∪ (sliceHead Xj rate).toFinset = ∅ ∨
      (sliceTail Xi rate).toFinset ∪ (sliceTail Xj rate).toFinset = ∅)
    ∧ (1 ≤ rate → Xi ≠ [] → Xj ≠ [] → distance Xi Xj rate ≠ none) := by
  have main : distance Xi Xj rate = none ↔
      (sliceHead Xi rate).toFinset ∪ (sliceHead Xj rate).toFinset = ∅ ∨
      (sliceTail Xi rate).toFinset ∪ (sliceTail Xj rate).toFinset = ∅ := by
    rcases h1 : jaccard (sliceHead Xi rate).toFinset (sliceHead Xj rate).toFinset
      with _ | s <;>
    rcases h2 : jaccard (sliceTail Xi rate).toFinset (sliceTail Xj rate).toFinset
      with _ | w <;>
    simp only [distance, h1, h2] <;>
    rw [← jaccard_eq_none_iff (Y := (sliceHead Xj rate).toFinset),
      ← jaccard_eq_none_iff (Y := (sliceTail Xj rate).toFinset)] <;>
    simp [h1, h2]
  refine ⟨main, fun hr hXi hXj hnone => ?_⟩
  rcases main.mp hnone with h | h
  · have : (sliceHead Xi rate).toFinset = ∅ :=
      Finset.union_eq_empty.mp h |>.1
    exact sliceHead_ne_nil Xi rate hr hXi (by simpa using this)
  · have : (sliceTail Xi rate).toFinset = ∅ :=
      Finset.union_eq_empty.mp h |>.1
    exact sliceTail_ne_nil Xi rate hr hXi (by simpa using this)

/-- C3 witness: a concrete pair of non-empty profiles at rate 1 on which
the distance computation raises no error. -/
theorem distance_divzero_iff_witness :
    distance ["分析思考"] ["着想"] 1 ≠ none :=
  (distance_divzero_iff ["分析思考"] ["着想"] 1).2 (by decide) (by decide) (by decide)

/-- C6: whenever both members' strength and weakness sets are non-empty, the
distance is defined, lies in `[0, 1]`, and swapping the two profiles yields
the same value. -/
theorem distance_bounds_symmetric (Xi Xj : List String) (rate : Nat)
    (h1 : (sliceHead Xi rate).toFinset.Nonempty)
    (h2 : (sliceHead Xj rate).toFinset.Nonempty)
    (h3 : (sliceTail Xi rate).toFinset.Nonempty)
    (h4 : (sliceTail Xj rate).toFinset.Nonempty) :
    ∃ d : ℚ, distance Xi Xj rate = some d ∧ 0 ≤ d ∧ d ≤ 1 ∧
      distance Xj Xi rate = some d := by
  obtain ⟨s, hs, hs0, hs1⟩ :=
    jaccard_bounds (sliceHead Xi rate).toFinset (sliceHead Xj rate).toFinset
      (Finset.Nonempty.inl h1)
  obtain ⟨w, hw, hw0, hw1⟩ :=
    jaccard_bounds (sliceTail Xi rate).toFinset (sliceTail Xj rate).toFinset
      (Finset.Nonempty.inl h3)
  refine ⟨1 - (s + w) / 2, ?_, by linarith, by linarith, ?_⟩
  · simp only [distance, hs, hw]
  · simp only [distance, jaccard_comm (sliceHead Xj rate).toFinset,
      jaccard_comm (sliceTail Xj rate).toFinset, hs, hw]

/-- C6 witness: concrete profiles with non-empty strength and weakness sets
at rate 2. -/
theorem distance_bounds_symmetric_witness :
    ∃ d : ℚ, distance ["着想", "内省", "自我"] ["着想", "包含"] 2 = some d ∧
      0 ≤ d ∧ d ≤ 1 ∧ distance ["着想", "包含"] ["着想", "内省", "自我"] 2 = some d :=
  distance_bounds_symmetric ["着想", "内省", "自我"] ["着想", "包含"] 2
    (by decide) (by decide) (by decide) (by decide)

/-- C7: two profiles with equal first-`rate` trait sets and equal
last-`rate` trait sets (both non-empty) are at distance exactly 0. -/
theorem distance_identity_zero (Xi Xj : List String) (rate : Nat)
    (hs : (sliceHead Xi rate).toFinset = (sliceHead Xj rate).toFinset)
    (hw : (sliceTail Xi rate).toFinset = (sliceTail Xj rate).toFinset)
    (hsne : (sliceHead Xi rate).toFinset.Nonempty)
    (hwne : (sliceTail Xi rate).toFinset.Nonempty) :
    distance Xi Xj rate = some 0 := by
  simp only [distance, ← hs, ← hw, jaccard_self_of_nonempty _ hsne,
    jaccard_self_of_nonempty _ hwne]
  norm_num

/-- C7 witness: two concrete profiles with identical top-2 and bottom-2 sets
(as sets, despite different list order). -/
theorem distance_identity_zero_witness :
    distance ["着想", "内省", "自我", "包含"] ["内省", "着想", "包含", "自我"] 2 = some 0 :=
  distance_identity_zero ["着想", "内省", "自我", "包含"]
    ["内省", "着想", "包含", "自我"] 2 (by decide) (by decide) (by decide) (by decide)

/-! ### Facts about `skipped_union` and `specific_gen` -/

lemma foldl_union_mem (t : String) :
    ∀ (xs : List (Finset String)) (x : Finset String),
      (t ∈ xs.foldl (· ∪ ·) x ↔ t ∈ x ∨ ∃ s ∈ xs, t ∈ s)
  | [], x => by simp
  | y :: ys, x => by
    rw [List.foldl_cons, foldl_union_mem t ys (x ∪ y)]
    simp [Finset.mem_union, or_assoc]

lemma skipped_union_char (name_i : String) (table : List (String × List String))
    (rate : Nat) (hne : ∃ kv ∈ table, kv.1 ≠ name_i) :
    ∃ u, skipped_union name_i table rate = some u ∧
      ∀ t, (t ∈ u ↔
        ∃ kv ∈ table, kv.1 ≠ name_i ∧ t ∈ (sliceHead kv.2 rate).toFinset) := by
  obtain ⟨kv, hkv, hkvne⟩ := hne
  have hmem : kv ∈ table.filter (fun kv => kv.1 ≠ name_i) :=
    List.mem_filter.mpr ⟨hkv, by simpa using hkvne⟩
  rcases hfl : (table.filter (fun kv => kv.1 ≠ name_i)).map
      (fun kv => (sliceHead kv.2 rate).toFinset) with _ | ⟨x, xs⟩
  · rw [List.map_eq_nil_iff] at hfl
    rw [hfl] at hmem
    exact absurd hmem (List.not_mem_nil kv)
  · refine ⟨_, by rw [skipped_union, hfl], fun t => ?_⟩
    rw [foldl_union_mem]
    have hcons : (t ∈ x ∨ ∃ s ∈ xs, t ∈ s) ↔ ∃ s ∈ x :: xs, t ∈ s := by
      simp
    rw [hcons, ← hfl]
    simp only [List.mem_map, List.mem_filter]
    constructor
    · rintro ⟨s, ⟨kv', ⟨hkv', hne'⟩, rfl⟩, hts⟩
      exact ⟨kv', hkv', by simpa using hne', hts⟩
    · rintro ⟨kv', hkv', hne', hts⟩
      exact ⟨_, ⟨kv', ⟨hkv', by simpa using hne'⟩, rfl⟩, hts⟩

lemma specific_gen_length (table : List (String × List String)) (rate : Nat) :
    (specific_gen table rate).length = table.length := by
  simp [specific_gen]

lemma lt_specific_len (table : List (String × List String)) (rate : Nat)
    (i : Fin table.length) : i.val < (specific_gen table rate).length := by
  rw [specific_gen_length]
  exact i.isLt

lemma get_map_pair {β γ : Type} (f : β → γ) (l : List β) (n : Nat)
    (h : n < (l.map f).length) :
    (l.map f).get ⟨n, h⟩ = f (l.get ⟨n, by simpa using h⟩) := by
  rw [List.get_eq_getElem, List.getElem_map, List.get_eq_getElem]

lemma key_get_inj (table : List (String × List String))
    (hkeys : (table.map Prod.fst).Nodup) (a b : Fin table.length)
    (h : (table.get a).1 = (table.get b).1) : a = b := by
  have ha : (table.map Prod.fst).get ⟨a.val, by simpa using a.isLt⟩ =
      (table.get a).1 := by
    rw [get_map_pair]
  have hb : (table.map Prod.fst).get ⟨b.val, by simpa using b.isLt⟩ =
      (table.get b).1 := by
    rw [get_map_pair]
  have hg : (table.map Prod.fst).get ⟨a.val, by simpa using a.isLt⟩ =
      (table.map Prod.fst).get ⟨b.val, by simpa using b.isLt⟩ := by
    rw [ha, hb]
    exact h
  have hv := hkeys.get_inj_iff.mp hg
  have hv' := congrArg Fin.val hv
  exact Fin.ext hv'

lemma specific_gen_char (table : List (String × List String)) (rate : Nat)
    (i : Fin table.length) (hne : ∃ kv ∈ table, kv.1 ≠ (table.get i).1) :
    ∃ s, (specific_gen table rate).get ⟨i.val, lt_specific_len table rate i⟩ =
        ((table.get i).1, some s) ∧
      ∀ t, (t ∈ s ↔ t ∈ (sliceHead (table.get i).2 rate).toFinset ∧
        ∀ kv ∈ table, kv.1 ≠ (table.get i).1 →
          t ∉ (sliceHead kv.2 rate).toFinset) := by
  obtain ⟨u, hu, hchar⟩ := skipped_union_char (table.get i).1 table rate hne
  refine ⟨(sliceHead (table.get i).2 rate).toFinset \ u, ?_, fun t => ?_⟩
  · refine (get_map_pair _ table i.val (lt_specific_len table rate i)).trans ?_
    show ((table.get i).1, (skipped_union (table.get i).1 table rate).map
      (fun v => (sliceHead (table.get i).2 rate).toFinset \ v)) = _
    rw [hu]
    rfl
  · rw [Finset.mem_sdiff, hchar t]
    constructor
    · rintro ⟨hts, hall⟩
      exact ⟨hts, fun kv hkv hkey htkv => hall ⟨kv, hkv, hkey, htkv⟩⟩
    · rintro ⟨hts, hall⟩
      exact ⟨hts, fun hex => by
        obtain ⟨kv, hkv, hkey, htkv⟩ := hex
        exact hall kv hkv hkey htkv⟩

/-- Member `j`'s top-`rate` trait set, `set(Xj[:rate])`, used to state the
uniqueness contract. -/
def topSet (table : List (String × List String)) (rate : Nat)
    (j : Fin table.length) : Finset String :=
  (sliceHead (table.get j).2 rate).toFinset

/-- The union of the top-`rate` trait sets of all members other than `i`,
the set `⋃ S_j` over `j ≠ i` from the spec's uniqueness contract. -/
def othersUnion (table : List (String × List String)) (rate : Nat)
    (i : Fin table.length) : Finset String :=
  (Finset.univ.erase i).biUnion (fun j => topSet table rate j)

/-- C4: over a table with at least two (distinct-keyed) members and a rate
of at least 1, `specific_gen` yields for member `i` the pair of its name and
`S_i` minus the union of `S_j` over all other members `j`; in particular the
yielded set is a subset of `S_i`. -/
theorem specific_formula (table : List (String × List String)) (rate : Nat)
    (h2 : 2 ≤ table.length) (hkeys : (table.map Prod.fst).Nodup)
    (hrate : 1 ≤ rate) :
    ∀ i : Fin table.length,
      (specific_gen table rate).get ⟨i.val, lt_specific_len table rate i⟩ =
        ((table.get i).1,
          some (topSet table rate i \ othersUnion table rate i)) ∧
      topSet table rate i \ othersUnion table rate i ⊆ topSet table rate i := by
  intro i
  have hne : ∃ kv ∈ table, kv.1 ≠ (table.get i).1 := by
    obtain ⟨j, hji⟩ : ∃ j : Fin table.length, j ≠ i := by
      rcases i with ⟨iv, hi⟩
      by_cases h0 : iv = 0
      · exact ⟨⟨1, by omega⟩, by simp [Fin.ext_iff, h0]⟩
      · exact ⟨⟨0, by omega⟩, by simp [Fin.ext_iff]; omega⟩
    exact ⟨table.get j, List.get_mem _ _ _,
      fun hcontra => hji (key_get_inj table hkeys j i hcontra)⟩
  obtain ⟨s, hget, hchar⟩ := specific_gen_char table rate i hne
  have hset : s = topSet table rate i \ othersUnion table rate i := by
    ext t
    rw [hchar t, Finset.mem_sdiff]
    constructor
    · rintro ⟨hts, hall⟩
      refine ⟨hts, fun hu => ?_⟩
      rw [othersUnion, Finset.mem_biUnion] at hu
      obtain ⟨j, hj, htj⟩ := hu
      have hjne : j ≠ i := (Finset.mem_erase.mp hj).1
      exact hall (table.get j) (List.get_mem _ _ _)
        (fun hkey => hjne (key_get_inj table hkeys j i hkey)) htj
    · rintro ⟨hts, hnu⟩
      refine ⟨hts, fun kv hkv hkey htkv => hnu ?_⟩
      rw [othersUnion, Finset.mem_biUnion]
      obtain ⟨j, hj⟩ := List.mem_iff_get.mp hkv
      refine ⟨j, Finset.mem_erase.mpr ⟨fun hji => ?_, Finset.mem_univ j⟩,
        by rw [topSet, hj]; exact htkv⟩
      rw [hji] at hj
      exact hkey (by rw [← hj])
  rw [hset] at hget
  exact ⟨hget, Finset.sdiff_subset⟩

/-- C4 witness: the contract instantiated for the first member of a concrete
two-member table at rate 2. -/
theorem specific_formula_witness :
    (specific_gen [("A", ["a", "b"]), ("B", ["b", "c"])] 2).get
        ⟨0, lt_specific_len [("A", ["a", "b"]), ("B", ["b", "c"])] 2
          ⟨0, by decide⟩⟩ =
      (([("A", ["a", "b"]), ("B", ["b", "c"])].get (⟨0, by decide⟩ :
          Fin [("A", ["a", "b"]), ("B", ["b", "c"])].length)).1,
        some (topSet [("A", ["a", "b"]), ("B", ["b", "c"])] 2 ⟨0, by decide⟩ \
          othersUnion [("A", ["a", "b"]), ("B", ["b", "c"])] 2 ⟨0, by decide⟩)) ∧
      topSet [("A", ["a", "b"]), ("B", ["b", "c"])] 2 ⟨0, by decide⟩ \
          othersUnion [("A", ["a", "b"]), ("B", ["b", "c"])] 2 ⟨0, by decide⟩ ⊆
        topSet [("A", ["a", "b"]), ("B", ["b", "c"])] 2 ⟨0, by decide⟩ :=
  specific_formula [("A", ["a", "b"]), ("B", ["b", "c"])] 2
    (by decide) (by decide) (by decide) ⟨0, by decide⟩

/-- C9: over a table with at least two (distinct-keyed) members and a rate
of at least 1, the specific-trait sets yielded for two distinct members are
disjoint. -/
theorem specific_sets_disjoint (table : List (String × List String))
    (rate : Nat) (h2 : 2 ≤ table.length)
    (hkeys : (table.map Prod.fst).Nodup) (hrate : 1 ≤ rate) :
    ∀ i j : Fin table.length, i ≠ j → ∀ si sj : Finset String,
      ((specific_gen table rate).get ⟨i.val, lt_specific_len table rate i⟩).2 =
        some si →
      ((specific_gen table rate).get ⟨j.val, lt_specific_len table rate j⟩).2 =
        some sj →
      Disjoint si sj := by
  intro i j hij si sj hsi hsj
  have hnei : ∃ kv ∈ table, kv.1 ≠ (table.get i).1 :=
    ⟨table.get j, List.get_mem _ _ _,
      fun h => hij (key_get_inj table hkeys j i h).symm⟩
  have hnej : ∃ kv ∈ table, kv.1 ≠ (table.get j).1 :=
    ⟨table.get i, List.get_mem _ _ _,
      fun h => hij (key_get_inj table hkeys i j h)⟩
  obtain ⟨si', hgi, hci⟩ := specific_gen_char table rate i hnei
  obtain ⟨sj', hgj, hcj⟩ := specific_gen_char table rate j hnej
  have hsi' : si = si' := by
    rw [hgi] at hsi
    exact (Option.some.inj hsi).symm
  have hsj' : sj = sj' := by
    rw [hgj] at hsj
    exact (Option.some.inj hsj).symm
  rw [Finset.disjoint_left]
  intro t hti htj
  rw [hsi'] at hti
  rw [hsj'] at htj
  have hmi := (hci t).mp hti
  have hmj := (hcj t).mp htj
  exact hmi.2 (table.get j) (List.get_mem _ _ _)
    (fun h => hij (key_get_inj table hkeys j i h).symm) hmj.1

/-- C9 witness: the two specific sets of a concrete two-member table are
disjoint. -/
theorem specific_sets_disjoint_witness :
    Disjoint ({"a"} : Finset String) ({"c"} : Finset String) :=
  specific_sets_disjoint [("A", ["a", "b"]), ("B", ["b", "c"])] 2
    (by decide) (by decide) (by decide) ⟨0, by decide⟩ ⟨1, by decide⟩
    (by decide) {"a"} {"c"} (by decide) (by decide)

/-- C1 counterexample: on the single-member table `{"A": ["分析思考"]}` at
rate 5, `specific_gen` does not yield the pair of the member's name and its
top-5 set; its only element carries the `TypeError` of `reduce` over an
empty iterable (embedded as `none`). -/
theorem specific_single_member_cex :
    specific_gen [("A", ["分析思考"])] 5 = [("A", none)] ∧
    ("A", some ({"分析思考"} : Finset String)) ∉
      specific_gen [("A", ["分析思考"])] 5 := by
  decide

/-- C1 amended: for every single-member table and every rate, `specific_gen`
yields exactly one pair for that member, whose second component is the error
of `reduce` over the empty union of zero other members (embedded as `none`);
no trait set is produced. -/
theorem specific_single_member_amended (name : String) (X : List String)
    (rate : Nat) : specific_gen [(name, X)] rate = [(name, none)] := by
  have hfl : [(name, X)].filter (fun kv => kv.1 ≠ name) = [] := by
    simp
  rw [specific_gen, List.map_cons, List.map_nil, skipped_union, hfl,
    List.map_nil]
  rfl

/-! ### Facts about `counter`, `dlookup` and `dictMerge` -/

def keysOf (d : List (String × Nat)) : List String := d.map Prod.fst

def sumVals (d : List (String × Nat)) : Nat := (d.map Prod.snd).sum

lemma anyKey_iff (d : List (String × Nat)) (k : String) :
    (d.any (fun q => q.1 = k) = true) ↔ k ∈ keysOf d := by
  simp [keysOf, List.any_eq_true, List.mem_map]

lemma counterAdd_keys (acc : List (String × Nat)) (x : String) :
    keysOf (counterAdd acc x) =
      if acc.any (fun p => p.1 = x) then keysOf acc else keysOf acc ++ [x] := by
  rw [counterAdd]
  split
  · simp [keysOf, List.map_map, Function.comp_def, apply_ite Prod.fst]
  · simp [keysOf]

lemma counterAdd_nodup (acc : List (String × Nat)) (x : String)
    (h : (keysOf acc).Nodup) : (keysOf (counterAdd acc x)).Nodup := by
  rw [counterAdd_keys]
  split
  · exact h
  · rename_i hany
    rw [List.nodup_append]
    refine ⟨h, List.nodup_singleton x, fun a ha hax => ?_⟩
    rw [List.mem_singleton] at hax
    exact hany ((anyKey_iff acc x).mpr (hax ▸ ha))

lemma sum_map_incr (x : String) :
    ∀ (acc : List (String × Nat)), (keysOf acc).Nodup →
      acc.any (fun p => p.1 = x) = true →
      sumVals (acc.map (fun p => if p.1 = x then (p.1, p.2 + 1) else p)) =
        sumVals acc + 1
  | [], _, hx => by simp at hx
  | p :: acc, h, hx => by
    have hcons' : (p.1 :: acc.map Prod.fst).Nodup := by
      simpa [keysOf] using h
    have hcons := List.nodup_cons.mp hcons'
    by_cases hp : p.1 = x
    · have hnx : ∀ q ∈ acc, ¬ q.1 = x := by
        intro q hq hqx
        apply hcons.1
        have hqm : q.1 ∈ acc.map Prod.fst := List.mem_map_of_mem Prod.fst hq
        rw [hqx] at hqm
        rw [hp]
        exact hqm
      have hmap : acc.map (fun q => if q.1 = x then (q.1, q.2 + 1) else q) =
          acc := by
        calc acc.map (fun q => if q.1 = x then (q.1, q.2 + 1) else q)
            = acc.map id := List.map_congr (fun q hq => by simp [hnx q hq])
          _ = acc := List.map_id acc
      simp only [List.map_cons, hmap, if_pos hp, sumVals, List.sum_cons]
      omega
    · have hx' : acc.any (fun p => p.1 = x) = true := by
        simpa [List.any_cons, hp] using hx
      have h' : (keysOf acc).Nodup := by simpa [keysOf] using hcons.2
      have IH := sum_map_incr x acc h' hx'
      simp only [List.map_cons, if_neg hp, sumVals, List.sum_cons] at IH ⊢
      omega

lemma counterAdd_sum (acc : List (String × Nat)) (x : String)
    (h : (keysOf acc).Nodup) : sumVals (counterAdd acc x) = sumVals acc + 1 := by
  rw [counterAdd]
  split
  · exact sum_map_incr x acc h (by assumption)
  · simp [sumVals]

lemma find?_key_map (g : String × Nat → String × Nat)
    (hg : ∀ p, (g p).1 = p.1) (k : String) :
    ∀ d : List (String × Nat),
      (d.map g).find? (fun p => p.1 = k) = (d.find? (fun p => p.1 = k)).map g
  | [] => by simp
  | p :: d => by
    by_cases hp : p.1 = k
    · rw [List.map_cons, List.find?_cons_of_pos _ (by simp [hg, hp]),
        List.find?_cons_of_pos _ (by simp [hp]), Option.map_some']
    · rw [List.map_cons, List.find?_cons_of_neg _ (by simp [hg, hp]),
        List.find?_cons_of_neg _ (by simp [hp]), find?_key_map g hg k d]

lemma dlookup_counterAdd (acc : List (String × Nat)) (x k : String)
    (h : (keysOf acc).Nodup) :
    (dlookup (counterAdd acc x) k).getD 0 =
      (dlookup acc k).getD 0 + (if k = x then 1 else 0) := by
  rw [counterAdd]
  split
  · rename_i hany
    rw [dlookup,
      find?_key_map _ (fun p => by simp [apply_ite Prod.fst]) k acc]
    rcases hf : acc.find? (fun p => p.1 = k) with _ | p0
    · have hnone : dlookup acc k = none := by rw [dlookup, hf]; rfl
      by_cases hkx : k = x
      · exfalso
        subst hkx
        have hx : k ∈ keysOf acc := (anyKey_iff acc k).mp hany
        rw [List.find?_eq_none] at hf
        obtain ⟨p, hp, hpk⟩ : ∃ p ∈ acc, p.1 = k := by
          simpa [keysOf, List.mem_map] using hx
        exact (hf p hp) (by simp [hpk])
      · rw [hf]
        simp [hnone, hkx]
    · have hp0 : p0.1 = k := by simpa using List.find?_some hf
      have hsome : dlookup acc k = some p0.2 := by rw [dlookup, hf]; rfl
      rw [hf, hsome]
      by_cases hkx : k = x
      · have hp0x : p0.1 = x := by rw [hp0]; exact hkx
        simp [hp0x, hkx]
      · have hp0x : ¬ p0.1 = x := by rw [hp0]; exact hkx
        simp [hp0x, hkx]
  · rename_i hany
    have hnx : x ∉ keysOf acc := fun hx => hany ((anyKey_iff acc x).mpr hx)
    rw [dlookup, List.find?_append]
    rcases hacc : acc.find? (fun p => p.1 = k) with _ | p0
    · have hnone : dlookup acc k = none := by rw [dlookup, hacc]; rfl
      by_cases hkx : k = x
      · subst hkx
        rw [hacc, List.find?_cons_of_pos _ (by simp)]
        simp [hnone]
      · rw [hacc, List.find?_cons_of_neg _ (by simp [Ne.symm hkx]),
          List.find?_nil]
        simp [hnone, hkx]
    · have hp0 : p0.1 = k := by simpa using List.find?_some hacc
      have hsome : dlookup acc k = some p0.2 := by rw [dlookup, hacc]; rfl
      have hkx : ¬ k = x := by
        intro hkx
        apply hnx
        have hmem : p0.1 ∈ keysOf acc :=
          List.mem_map_of_mem Prod.fst (List.mem_of_find?_eq_some hacc)
        rw [hp0, hkx] at hmem
        exact hmem
      rw [hacc]
      simp [hsome, hkx]

lemma counter_spec :
    ∀ (l : List String) (acc : List (String × Nat)), (keysOf acc).Nodup →
      (keysOf (l.foldl counterAdd acc)).Nodup
      ∧ (∀ k, k ∈ keysOf (l.foldl counterAdd acc) → k ∈ keysOf acc ∨ k ∈ l)
      ∧ sumVals (l.foldl counterAdd acc) = sumVals acc + l.length
      ∧ ∀ k, (dlookup (l.foldl counterAdd acc) k).getD 0 =
          (dlookup acc k).getD 0 + l.count k
  | [], acc, h => by simp [h]
  | x :: l, acc, h => by
    rw [List.foldl_cons]
    obtain ⟨h1, h2, h3, h4⟩ := counter_spec l (counterAdd acc x)
      (counterAdd_nodup acc x h)
    refine ⟨h1, ?_, ?_, ?_⟩
    · intro k hk
      rcases h2 k hk with hk' | hk'
      · rw [counterAdd_keys] at hk'
        split at hk'
        · exact Or.inl hk'
        · rcases List.mem_append.mp hk' with hm | hm
          · exact Or.inl hm
          · rw [List.mem_singleton] at hm
            exact Or.inr (hm ▸ List.mem_cons_self x l)
      · exact Or.inr (List.mem_cons_of_mem x hk')
    · rw [h3, counterAdd_sum acc x h, List.length_cons]
      omega
    · intro k
      rw [h4 k, dlookup_counterAdd acc x k h]
      by_cases hkx : k = x <;> simp [List.count_cons, hkx] <;> omega

lemma counter_nodup (l : List String) : (keysOf (counter l)).Nodup :=
  (counter_spec l [] (by simp [keysOf])).1

lemma counter_keys_sub (l : List String) :
    ∀ k ∈ keysOf (counter l), k ∈ l := by
  intro k hk
  rcases (counter_spec l [] (by simp [keysOf])).2.1 k hk with h | h
  · simp [keysOf] at h
  · exact h

lemma counter_sum (l : List String) : sumVals (counter l) = l.length := by
  have := (counter_spec l [] (by simp [keysOf])).2.2.1
  simpa [sumVals] using this

lemma counter_lookup (l : List String) (k : String) :
    (dlookup (counter l) k).getD 0 = l.count k := by
  have := (counter_spec l [] (by simp [keysOf])).2.2.2 k
  simpa [dlookup] using this

lemma keysOf_emptyHist : keysOf emptyHist = themeVocabulary := by
  simp [keysOf, emptyHist, List.map_map, Function.comp_def]

lemma vocab_nodup : themeVocabulary.Nodup := by decide

lemma sliceHead_subset (xs : List String) (rate : Nat) : sliceHead xs rate ⊆ xs :=
  List.take_subset rate xs

lemma sliceTail_subset (xs : List String) (rate : Nat) : sliceTail xs rate ⊆ xs := by
  rw [sliceTail]
  split
  · exact fun a ha => ha
  · exact List.drop_subset _ xs

lemma keysOf_dictMerge (d1 d2 : List (String × Nat)) :
    keysOf (dictMerge d1 d2) =
      keysOf d1 ++ keysOf (d2.filter (fun p => ¬ d1.any (fun q => q.1 = p.1))) := by
  simp [dictMerge, keysOf, List.map_map, Function.comp_def]

lemma filter_eq_nil_of_keys_sub (c : List (String × Nat))
    (hc : ∀ k ∈ keysOf c, k ∈ themeVocabulary) :
    c.filter (fun p => ¬ emptyHist.any (fun q => q.1 = p.1)) = [] := by
  rw [List.filter_eq_nil_iff]
  intro p hp
  have hpk : p.1 ∈ keysOf emptyHist := by
    rw [keysOf_emptyHist]
    exact hc p.1 (List.mem_map_of_mem Prod.fst hp)
  simp [(anyKey_iff emptyHist p.1).mpr hpk]

/-- C2: provided every trait label in the table belongs to the vocabulary
(the data-model invariant of `ThemesTable`), `histogram` returns two
mappings whose keys are exactly the 34-label vocabulary, in order,
regardless of which traits occur in the profiles. -/
theorem histogram_keys_complete (table : List (String × List String))
    (rate : Nat)
    (hvoc : ∀ kv ∈ table, ∀ t ∈ kv.2, t ∈ themeVocabulary) :
    keysOf (histogram table rate).1 = themeVocabulary ∧
    keysOf (histogram table rate).2 = themeVocabulary ∧
    themeVocabulary.length = 34 := by
  have hs : ∀ k ∈ keysOf
      (counter ((table.map (fun kv => sliceHead kv.2 rate)).flatten)),
      k ∈ themeVocabulary := by
    intro k hk
    have hk' := counter_keys_sub _ k hk
    rw [List.mem_flatten] at hk'
    obtain ⟨l, hl, hkl⟩ := hk'
    rw [List.mem_map] at hl
    obtain ⟨kv, hkv, rfl⟩ := hl
    exact hvoc kv hkv k (sliceHead_subset kv.2 rate hkl)
  have hw : ∀ k ∈ keysOf
      (counter ((table.map (fun kv => sliceTail kv.2 rate)).flatten)),
      k ∈ themeVocabulary := by
    intro k hk
    have hk' := counter_keys_sub _ k hk
    rw [List.mem_flatten] at hk'
    obtain ⟨l, hl, hkl⟩ := hk'
    rw [List.mem_map] at hl
    obtain ⟨kv, hkv, rfl⟩ := hl
    exact hvoc kv hkv k (sliceTail_subset kv.2 rate hkl)
  refine ⟨?_, ?_, rfl⟩
  · show keysOf (dictMerge emptyHist
      (counter ((table.map (fun kv => sliceHead kv.2 rate)).flatten))) = _
    rw [keysOf_dictMerge, keysOf_emptyHist, filter_eq_nil_of_keys_sub _ hs]
    simp [keysOf]
  · show keysOf (dictMerge emptyHist
      (counter ((table.map (fun kv => sliceTail kv.2 rate)).flatten))) = _
    rw [keysOf_dictMerge, keysOf_emptyHist, filter_eq_nil_of_keys_sub _ hw]
    simp [keysOf]

/-- C2 witness: a concrete one-member table whose profile uses only
vocabulary labels. -/
theorem histogram_keys_complete_witness :
    keysOf (histogram [("A", ["回復志向"])] 5).1 = themeVocabulary ∧
    keysOf (histogram [("A", ["回復志向"])] 5).2 = themeVocabulary ∧
    themeVocabulary.length = 34 :=
  histogram_keys_complete [("A", ["回復志向"])] 5 (by decide)

lemma sumVals_append (a b : List (String × Nat)) :
    sumVals (a ++ b) = sumVals a + sumVals b := by
  simp [sumVals]

lemma sumVals_cons (p : String × Nat) (d : List (String × Nat)) :
    sumVals (p :: d) = p.2 + sumVals d := by
  simp [sumVals]

lemma sumVals_filter_partition (q : String × Nat → Bool) :
    ∀ d : List (String × Nat),
      sumVals (d.filter q) + sumVals (d.filter (fun p => !(q p))) = sumVals d
  | [] => by simp [sumVals]
  | p :: d => by
    have IH := sumVals_filter_partition q d
    rcases hq : q p
    · rw [List.filter_cons_of_neg (by simp [hq]),
        List.filter_cons_of_pos (by simp [hq]), sumVals_cons, sumVals_cons]
      omega
    · rw [List.filter_cons_of_pos hq,
        List.filter_cons_of_neg (by simp [hq]), sumVals_cons, sumVals_cons]
      omega

lemma sumVals_filter_or (q r : String × Nat → Bool) :
    ∀ d : List (String × Nat), (∀ p ∈ d, ¬(q p = true ∧ r p = true)) →
      sumVals (d.filter (fun p => q p || r p)) =
        sumVals (d.filter q) + sumVals (d.filter r)
  | [], _ => by simp [sumVals]
  | p :: d, hd => by
    have IH := sumVals_filter_or q r d (fun p hp => hd p (List.mem_cons_of_mem _ hp))
    have hpd := hd p (List.mem_cons_self p d)
    rcases hq : q p <;> rcases hr : r p
    · rw [List.filter_cons_of_neg (by simp [hq, hr]),
        List.filter_cons_of_neg (by simp [hq]),
        List.filter_cons_of_neg (by simp [hr]), IH]
    · rw [List.filter_cons_of_pos (by simp [hq, hr]),
        List.filter_cons_of_neg (by simp [hq]),
        List.filter_cons_of_pos hr, sumVals_cons, sumVals_cons, IH]
      omega
    · rw [List.filter_cons_of_pos (by simp [hq, hr]),
        List.filter_cons_of_pos hq,
        List.filter_cons_of_neg (by simp [hr]), sumVals_cons, sumVals_cons, IH]
      omega
    · exact absurd ⟨hq, hr⟩ hpd

lemma sumVals_filter_key :
    ∀ (c : List (String × Nat)), (keysOf c).Nodup → ∀ k : String,
      sumVals (c.filter (fun p => p.1 = k)) = (dlookup c k).getD 0
  | [], _, k => by simp [sumVals, dlookup]
  | p :: c, h, k => by
    have hcons' : (p.1 :: c.map Prod.fst).Nodup := by simpa [keysOf] using h
    have hcons := List.nodup_cons.mp hcons'
    have h' : (keysOf c).Nodup := hcons.2
    by_cases hp : p.1 = k
    · have hnil : c.filter (fun p => p.1 = k) = [] := by
        rw [List.filter_eq_nil_iff]
        intro q hq
        simp only [decide_eq_true_eq]
        intro hqk
        apply hcons.1
        have hqm : q.1 ∈ c.map Prod.fst := List.mem_map_of_mem Prod.fst hq
        rw [hqk] at hqm
        rw [hp]
        exact hqm
      rw [List.filter_cons_of_pos (by simp [hp]), hnil, dlookup,
        List.find?_cons_of_pos _ (by simp [hp])]
      simp [sumVals]
    · rw [List.filter_cons_of_neg (by simp [hp]), dlookup,
        List.find?_cons_of_neg _ (by simp [hp])]
      exact sumVals_filter_key c h' k

lemma sum_lookup_vocab (c : List (String × Nat)) (hc : (keysOf c).Nodup) :
    ∀ l : List String, l.Nodup →
      (l.map (fun k => (dlookup c k).getD 0)).sum =
        sumVals (c.filter (fun p => p.1 ∈ l))
  | [], _ => by
    have hnil : c.filter (fun p => p.1 ∈ ([] : List String)) = [] := by
      rw [List.filter_eq_nil_iff]
      intro p hp
      simp
    simp [hnil, sumVals]
  | k :: l, hnd => by
    have hkl := List.nodup_cons.mp hnd
    have hfc : c.filter (fun p => p.1 ∈ (k :: l)) =
        c.filter (fun p => (decide (p.1 = k)) || (decide (p.1 ∈ l))) := by
      apply List.filter_congr
      intro p hp
      simp [List.mem_cons]
    have hdisj : ∀ p ∈ c,
        ¬((decide (p.1 = k)) = true ∧ (decide (p.1 ∈ l)) = true) := by
      rintro p hp ⟨h1, h2⟩
      rw [decide_eq_true_eq] at h1 h2
      exact hkl.1 (h1 ▸ h2)
    rw [List.map_cons, List.sum_cons, sum_lookup_vocab c hc l hkl.2, hfc,
      sumVals_filter_or _ _ c hdisj, sumVals_filter_key c hc k]

lemma sumVals_dictMerge_counter (c : List (String × Nat))
    (hc : (keysOf c).Nodup) :
    sumVals (dictMerge emptyHist c) = sumVals c := by
  rw [dictMerge, sumVals_append]
  have h1 : sumVals (emptyHist.map (fun p => (p.1, (dlookup c p.1).getD p.2))) =
      (themeVocabulary.map (fun k => (dlookup c k).getD 0)).sum := by
    simp [sumVals, emptyHist, List.map_map, Function.comp_def]
  have h2 : c.filter (fun p => ¬ emptyHist.any (fun q => q.1 = p.1)) =
      c.filter (fun p => !(decide (p.1 ∈ themeVocabulary))) := by
    apply List.filter_congr
    intro p hp
    have hiff := anyKey_iff emptyHist p.1
    rw [keysOf_emptyHist] at hiff
    simp [hiff]
  rw [h1, sum_lookup_vocab c hc themeVocabulary vocab_nodup, h2]
  exact sumVals_filter_partition (fun p => decide (p.1 ∈ themeVocabulary)) c

/-- C5 counterexample: at rate 0 on the table `{"A": ["分析思考"]}` the
weakness-histogram counts sum to 1, while `Σ min(rate, len(profile))` is 0 —
the conservation law fails for rate 0 because `xs[-0:]` is the whole list. -/
theorem histogram_count_rate_zero_cex :
    sumVals (histogram [("A", ["分析思考"])] 0).2 ≠
      ([("A", ["分析思考"])].map (fun kv => min 0 kv.2.length)).sum := by
  decide

/-- C5 amended: for every table and every rate ≥ 1, the sum of all counts in
the strengths mapping equals Σ over members of `min(rate, len(profile))`,
and likewise for the weaknesses mapping. -/
theorem histogram_count_conservation (table : List (String × List String))
    (rate : Nat) (hrate : 1 ≤ rate) :
    sumVals (histogram table rate).1 =
      (table.map (fun kv => min rate kv.2.length)).sum ∧
    sumVals (histogram table rate).2 =
      (table.map (fun kv => min rate kv.2.length)).sum := by
  constructor
  · show sumVals (dictMerge emptyHist
      (counter ((table.map (fun kv => sliceHead kv.2 rate)).flatten))) = _
    rw [sumVals_dictMerge_counter _ (counter_nodup _), counter_sum,
      List.length_flatten, List.map_map]
    congr 1
    apply List.map_congr
    intro kv _
    exact sliceHead_length kv.2 rate
  · show sumVals (dictMerge emptyHist
      (counter ((table.map (fun kv => sliceTail kv.2 rate)).flatten))) = _
    rw [sumVals_dictMerge_counter _ (counter_nodup _), counter_sum,
      List.length_flatten, List.map_map]
    congr 1
    apply List.map_congr
    intro kv _
    exact sliceTail_length kv.2 rate hrate

/-- C5 witness: the conservation law at rate 1 on a concrete table. -/
theorem histogram_count_conservation_witness :
    sumVals (histogram [("A", ["着想", "内省"])] 1).1 =
      ([("A", ["着想", "内省"])].map (fun kv => min 1 kv.2.length)).sum ∧
    sumVals (histogram [("A", ["着想", "内省"])] 1).2 =
      ([("A", ["着想", "内省"])].map (fun kv => min 1 kv.2.length)).sum :=
  histogram_count_conservation [("A", ["着想", "内省"])] 1 (by decide)

lemma find?_map_base (h : String → String × Nat) (hh : ∀ t, (h t).1 = t)
    (k : String) :
    ∀ l : List String, (l.map h).find? (fun p => p.1 = k) =
      (l.find? (fun t => t = k)).map h
  | [] => by simp
  | t :: l => by
    by_cases ht : t = k
    · rw [List.map_cons, List.find?_cons_of_pos _ (by simp [hh, ht]),
        List.find?_cons_of_pos _ (by simp [ht]), Option.map_some']
    · rw [List.map_cons, List.find?_cons_of_neg _ (by simp [hh, ht]),
        List.find?_cons_of_neg _ (by simp [ht]), find?_map_base h hh k l]

lemma find?_self_of_mem (k : String) :
    ∀ l : List String, k ∈ l → l.find? (fun t => t = k) = some k
  | t :: l, hm => by
    by_cases ht : t = k
    · rw [List.find?_cons_of_pos _ (by simp [ht]), ht]
    · rw [List.find?_cons_of_neg _ (by simp [ht])]
      rcases List.mem_cons.mp hm with hkt | hkl
      · exact absurd hkt.symm ht
      · exact find?_self_of_mem k l hkl

lemma find?_key_filter (q : String × Nat → Bool) (k : String)
    (hq : ∀ p : String × Nat, p.1 = k → q p = true) :
    ∀ c : List (String × Nat),
      (c.filter q).find? (fun p => p.1 = k) = c.find? (fun p => p.1 = k)
  | [] => by simp
  | p :: c => by
    by_cases hp : p.1 = k
    · rw [List.filter_cons_of_pos (hq p hp),
        List.find?_cons_of_pos _ (by simp [hp]),
        List.find?_cons_of_pos _ (by simp [hp])]
    · rcases hqp : q p
      · rw [List.filter_cons_of_neg (by simp [hqp]),
          find?_key_filter q k hq c, List.find?_cons_of_neg _ (by simp [hp])]
      · rw [List.filter_cons_of_pos hqp,
          List.find?_cons_of_neg _ (by simp [hp]),
          List.find?_cons_of_neg _ (by simp [hp]), find?_key_filter q k hq c]

lemma dlookupD_dictMerge_emptyHist (c : List (String × Nat)) (k : String) :
    (dlookup (dictMerge emptyHist c) k).getD 0 = (dlookup c k).getD 0 := by
  rw [dictMerge, dlookup, List.find?_append,
    find?_key_map (fun p => (p.1, (dlookup c p.1).getD p.2)) (fun p => rfl)
      k emptyHist]
  have hEH : emptyHist.find? (fun p => p.1 = k) =
      (themeVocabulary.find? (fun t => t = k)).map (fun t => (t, 0)) :=
    find?_map_base (fun t => (t, 0)) (fun t => rfl) k themeVocabulary
  rw [hEH]
  by_cases hk : k ∈ themeVocabulary
  · rw [find?_self_of_mem k themeVocabulary hk]
    simp
  · have hnone : themeVocabulary.find? (fun t => t = k) = none := by
      rw [List.find?_eq_none]
      intro t ht
      simp only [decide_eq_true_eq]
      intro htk
      exact hk (htk ▸ ht)
    have hq : ∀ p : String × Nat, p.1 = k →
        (decide ¬(emptyHist.any (fun q => q.1 = p.1) = true)) = true := by
      intro p hpk
      have hmem : ¬ (emptyHist.any (fun q => q.1 = p.1) = true) := by
        rw [anyKey_iff, keysOf_emptyHist, hpk]
        exact hk
      exact decide_eq_true hmem
    rw [hnone]
    simp only [Option.map_none', Option.none_or]
    rw [find?_key_filter _ k hq c]
    rfl

/-- C10: at rate 0 `histogram` is asymmetric: the strengths mapping is the
zero-filled vocabulary baseline (every count 0, since `xs[:0]` is empty),
while the weaknesses mapping counts every occurrence of every trait in every
full profile, because the Python slice `xs[-0:]` denotes the whole list. -/
theorem histogram_rate_zero_asymmetric (table : List (String × List String)) :
    (histogram table 0).1 = emptyHist ∧
    ∀ t : String, (dlookup (histogram table 0).2 t).getD 0 =
      ((table.map Prod.snd).flatten).count t := by
  constructor
  · show dictMerge emptyHist
      (counter ((table.map (fun kv => sliceHead kv.2 0)).flatten)) = emptyHist
    have h0 : (table.map (fun kv => sliceHead kv.2 0)).flatten = [] := by
      rw [List.flatten_eq_nil_iff]
      intro l hl
      rw [List.mem_map] at hl
      obtain ⟨kv, _, rfl⟩ := hl
      rfl
    rw [h0]
    show dictMerge emptyHist [] = emptyHist
    simp [dictMerge, dlookup]
  · intro t
    have hT : table.map (fun kv => sliceTail kv.2 0) = table.map Prod.snd :=
      List.map_congr (fun kv _ => by rw [sliceTail, if_pos rfl])
    show (dlookup (dictMerge emptyHist
      (counter ((table.map (fun kv => sliceTail kv.2 0)).flatten))) t).getD 0 = _
    rw [hT, dlookupD_dictMerge_emptyHist, counter_lookup]

/-! ### Facts about `pairs` and `distance_gen` -/

lemma mem_of_mem_pairs {α : Type} (a b : α) :
    ∀ l : List α, (a, b) ∈ pairs l → a ∈ l ∧ b ∈ l
  | [], h => by simp [pairs] at h
  | x :: xs, h => by
    rw [pairs, List.mem_append] at h
    rcases h with h | h
    · rw [List.mem_map] at h
      obtain ⟨y, hy, hxy⟩ := h
      obtain ⟨h1, h2⟩ := Prod.mk.inj hxy
      constructor
      · rw [← h1]
        exact List.mem_cons_self x xs
      · rw [← h2]
        exact List.mem_cons_of_mem x hy
    · have hm := mem_of_mem_pairs a b xs h
      exact ⟨List.mem_cons_of_mem x hm.1, List.mem_cons_of_mem x hm.2⟩

lemma pairs_map {α β : Type} (f : α → β) :
    ∀ l : List α, pairs (l.map f) = (pairs l).map (Prod.map f f)
  | [] => rfl
  | x :: xs => by
    rw [List.map_cons, pairs, pairs, List.map_append, pairs_map f xs,
      List.map_map, List.map_map]
    rfl

lemma pairs_nodup {α : Type} : ∀ l : List α, l.Nodup → (pairs l).Nodup
  | [], _ => by simp [pairs]
  | x :: xs, h => by
    have hx := (List.nodup_cons.mp h).1
    have hxs := (List.nodup_cons.mp h).2
    rw [pairs]
    apply List.Nodup.append
    · apply List.Nodup.map _ hxs
      intro u v huv
      exact (Prod.mk.inj huv).2
    · exact pairs_nodup xs hxs
    · intro p hp hp2
      rw [List.mem_map] at hp
      obtain ⟨y, hy, rfl⟩ := hp
      exact hx (mem_of_mem_pairs x y xs hp2).1

lemma pairs_swap_not_mem {α : Type} (p q : α) :
    ∀ l : List α, l.Nodup → (p, q) ∈ pairs l → (q, p) ∉ pairs l
  | [], _, hm => by simp [pairs] at hm
  | x :: xs, h, hm => by
    have hx := (List.nodup_cons.mp h).1
    have hxs := (List.nodup_cons.mp h).2
    intro hm2
    rw [pairs, List.mem_append] at hm hm2
    rcases hm with hm | hm <;> rcases hm2 with hm2 | hm2
    · rw [List.mem_map] at hm hm2
      obtain ⟨y, hy, hab⟩ := hm
      obtain ⟨z, hz, hab2⟩ := hm2
      obtain ⟨h1, h2⟩ := Prod.mk.inj hab
      obtain ⟨h3, h4⟩ := Prod.mk.inj hab2
      apply hx
      rw [h3, ← h2]
      exact hy
    · rw [List.mem_map] at hm
      obtain ⟨y, hy, hab⟩ := hm
      obtain ⟨h1, h2⟩ := Prod.mk.inj hab
      apply hx
      rw [h1]
      exact (mem_of_mem_pairs q p xs hm2).2
    · rw [List.mem_map] at hm2
      obtain ⟨z, hz, hab2⟩ := hm2
      obtain ⟨h3, h4⟩ := Prod.mk.inj hab2
      apply hx
      rw [h3]
      exact (mem_of_mem_pairs p q xs hm).2
    · exact pairs_swap_not_mem p q xs hxs hm hm2

lemma pairs_length {α : Type} :
    ∀ l : List α, 2 * (pairs l).length = l.length * (l.length - 1)
  | [] => rfl
  | x :: xs => by
    have IH := pairs_length xs
    rw [pairs, List.length_append, List.length_map, List.length_cons]
    rcases hn : xs.length with _ | m
    · rw [hn] at IH
      have hz : (0 : Nat) * (0 - 1) = 0 := rfl
      rw [hz] at IH
      have hg : (0 + 1) * (0 + 1 - 1) = 0 := rfl
      rw [hg]
      omega
    · rw [hn] at IH
      have h1 : m + 1 + 1 - 1 = m + 1 := rfl
      rw [h1]
      have h2 : m + 1 - 1 = m := rfl
      rw [h2] at IH
      have hring : (m + 1 + 1) * (m + 1) = (m + 1) * m + 2 * (m + 1) := by
        ring
      rw [hring]
      linarith [IH]

lemma get_mem_pairs {α : Type} :
    ∀ (l : List α) (a b : Fin l.length), a < b → (l.get a, l.get b) ∈ pairs l
  | x :: xs, ⟨0, ha⟩, ⟨0, hb⟩, hab => absurd hab (by simp [Fin.lt_def])
  | x :: xs, ⟨0, ha⟩, ⟨b + 1, hb⟩, hab => by
    rw [pairs, List.mem_append]
    left
    rw [List.mem_map]
    exact ⟨xs.get ⟨b, by simpa using hb⟩, List.get_mem xs _ _, rfl⟩
  | x :: xs, ⟨a + 1, ha⟩, ⟨0, hb⟩, hab => absurd hab (by simp [Fin.lt_def])
  | x :: xs, ⟨a + 1, ha⟩, ⟨b + 1, hb⟩, hab => by
    rw [pairs, List.mem_append]
    right
    have hab' : (⟨a, by simpa using ha⟩ : Fin xs.length) <
        ⟨b, by simpa using hb⟩ := by
      simpa [Fin.lt_def] using hab
    exact get_mem_pairs xs ⟨a, by simpa using ha⟩ ⟨b, by simpa using hb⟩ hab'

/-- C8: over a table with distinct keys, `distance_gen` yields
`n * (n - 1) / 2` triples, contains the triple for every index pair
`a < b` (first member preceding the second in table order), never emits the
reversed pair, and emits no name pair twice. -/
theorem distance_gen_pairs_exact (table : List (String × List String))
    (rate : Nat) (hkeys : (table.map Prod.fst).Nodup) :
    (distance_gen table rate).length = table.length * (table.length - 1) / 2
    ∧ (∀ a b : Fin table.length, a < b →
        ((table.get a).1, (table.get b).1,
          distance (table.get a).2 (table.get b).2 rate) ∈
            distance_gen table rate)
    ∧ ((distance_gen table rate).map (fun t => (t.1, t.2.1))).Nodup
    ∧ (∀ a b : Fin table.length, a < b → ∀ d : Option ℚ,
        ((table.get b).1, (table.get a).1, d) ∉ distance_gen table rate) := by
  have hnames : (distance_gen table rate).map (fun t => (t.1, t.2.1)) =
      pairs (table.map Prod.fst) := by
    rw [distance_gen, List.map_map, pairs_map]
    rfl
  refine ⟨?_, ?_, ?_, ?_⟩
  · rw [distance_gen, List.length_map]
    have h2 := pairs_length table
    rw [← h2]
    exact (Nat.mul_div_cancel_left _ (by norm_num)).symm
  · intro a b hab
    have hm := get_mem_pairs table a b hab
    rw [distance_gen]
    exact List.mem_map_of_mem _ hm
  · rw [hnames]
    exact pairs_nodup _ hkeys
  · intro a b hab d hmem
    have h1 : ((table.get b).1, (table.get a).1) ∈
        (distance_gen table rate).map (fun t => (t.1, t.2.1)) :=
      List.mem_map_of_mem _ hmem
    rw [hnames] at h1
    have hla : a.val < (table.map Prod.fst).length := by
      rw [List.length_map]
      exact a.isLt
    have hlb : b.val < (table.map Prod.fst).length := by
      rw [List.length_map]
      exact b.isLt
    have hab' : (⟨a.val, hla⟩ : Fin (table.map Prod.fst).length) <
        ⟨b.val, hlb⟩ := Fin.mk_lt_mk.mpr hab
    have h2 := get_mem_pairs (table.map Prod.fst) ⟨a.val, hla⟩ ⟨b.val, hlb⟩ hab'
    rw [get_map_pair Prod.fst table a.val hla,
      get_map_pair Prod.fst table b.val hlb] at h2
    exact pairs_swap_not_mem _ _ (table.map Prod.fst) hkeys h2 h1

/-- C8 witness: the pair-exactness facts on a concrete two-member table. -/
theorem distance_gen_pairs_exact_witness :
    (distance_gen [("A", ["a"]), ("B", ["b"])] 1).length =
      [("A", ["a"]), ("B", ["b"])].length *
        ([("A", ["a"]), ("B", ["b"])].length - 1) / 2 :=
  (distance_gen_pairs_exact [("A", ["a"]), ("B", ["b"])] 1 (by decide)).1

end StrengthFinder
